import Mathlib

set_option maxRecDepth 8000

/-!
Verification of the `standard_binary_tree` module of `alloy-merkle-tree`.

The development shallowly embeds `src/standard_binary_tree.rs`:

* 256-bit digests (`B256`) are `Nat` values below `2 ^ 256`; the byte view
  used by the hasher is the big-endian 32-byte expansion, which matches the
  byte-array representation and its lexicographic `Ord` on the Rust side.
* `keccak256` is implemented concretely (Keccak-f[1600], rate 1088, Keccak
  padding `0x01 .. 0x80`), operating on byte lists with `Nat` lane
  arithmetic, so that theorems can be evaluated on concrete inputs.
* A Rust `panic!` (and a panicking index or underflowing `usize`
  subtraction) is modelled as `Option.none`; `Result` is modelled as
  `Except`.
* The `hashbrown::HashMap` reverse index is modelled as an association
  list built by prepending, so that `List.lookup` sees the most recent
  insertion first: observationally the overwrite semantics of the map.
-/

/-! ## Keccak-256 primitive -/

/-- 64-bit left rotation on `Nat` lanes (values below `2 ^ 64`). -/
def rotl64 (x n : Nat) : Nat :=
  (x <<< n ||| x >>> (64 - n)) % 2 ^ 64

/-- Round constants of Keccak-f[1600] (decimal values of the 64-bit
constants of FIPS 202). -/
def keccakRC : List Nat :=
  [1, 32898, 9223372036854808714,
   9223372039002292224, 32907, 2147483649,
   9223372039002292353, 9223372036854808585, 138,
   136, 2147516425, 2147483658,
   2147516555, 9223372036854775947, 9223372036854808713,
   9223372036854808579, 9223372036854808578, 9223372036854775936,
   32778, 9223372039002259466, 9223372039002292353,
   9223372036854808704, 2147483649, 9223372039002292232]

/-- Rotation offsets of the rho step, indexed by the TARGET lane of the
pi step: entry `i` is the offset applied to the lane that pi moves to
position `i` (so `rhoPiStep` below indexes it by its output position). -/
def rhoByTarget : List Nat :=
  [0, 44, 43, 21, 14,
   28, 20, 3, 45, 61,
   1, 6, 25, 8, 18,
   27, 36, 10, 15, 56,
   62, 55, 39, 41, 2]

/-- Theta step of Keccak-f; the state is a list of 25 lanes. -/
def thetaStep (a : List Nat) : List Nat :=
  let c := (List.range 5).map fun x =>
    a.getD x 0 ^^^ a.getD (x + 5) 0 ^^^ a.getD (x + 10) 0 ^^^ a.getD (x + 15) 0 ^^^
      a.getD (x + 20) 0
  let d := (List.range 5).map fun x =>
    c.getD ((x + 4) % 5) 0 ^^^ rotl64 (c.getD ((x + 1) % 5) 0) 1
  (List.range 25).map fun i => a.getD i 0 ^^^ d.getD (i % 5) 0

/-- Combined rho and pi steps of Keccak-f. -/
def rhoPiStep (a : List Nat) : List Nat :=
  (List.range 25).map fun i =>
    let x := i % 5
    let y := i / 5
    let j := (x + 3 * y) % 5 + 5 * x
    rotl64 (a.getD j 0) (rhoByTarget.getD i 0)

/-- Chi step of Keccak-f. -/
def chiStep (b : List Nat) : List Nat :=
  (List.range 25).map fun i =>
    let x := i % 5
    let y := i / 5
    b.getD i 0 ^^^ (((2 ^ 64 - 1) ^^^ b.getD ((x + 1) % 5 + 5 * y) 0) &&&
      b.getD ((x + 2) % 5 + 5 * y) 0)

/-- Iota step of Keccak-f: mix the round constant into lane 0. -/
def iotaStep (a : List Nat) (rc : Nat) : List Nat :=
  match a with
  | [] => []
  | h :: t => (h ^^^ rc) :: t

/-- One round of Keccak-f[1600]. -/
def keccakRound (a : List Nat) (rc : Nat) : List Nat :=
  iotaStep (chiStep (rhoPiStep (thetaStep a))) rc

/-- The full 24-round Keccak-f[1600] permutation. -/
def keccakF (a : List Nat) : List Nat :=
  keccakRC.foldl keccakRound a

/-- Interpret up to eight bytes as a little-endian 64-bit lane. -/
def bytesToLane (bs : List Nat) : Nat :=
  bs.foldr (fun b acc => acc * 256 + b) 0

/-- Keccak padding (`0x01 .. 0x80`) to a multiple of the 136-byte rate. -/
def keccakPad (msg : List Nat) : List Nat :=
  let padLen := 136 - msg.length % 136
  if padLen = 1 then msg ++ [0x81]
  else msg ++ 0x01 :: (List.replicate (padLen - 2) 0 ++ [0x80])

/-- Absorb one 136-byte block into the state and permute. -/
def absorbBlock (st block : List Nat) : List Nat :=
  keccakF ((List.range 25).map fun i =>
    if i < 17 then st.getD i 0 ^^^ bytesToLane ((block.drop (8 * i)).take 8)
    else st.getD i 0)

/-- Absorb `k` rate-sized blocks of `msg`, structurally on the block count. -/
def absorbBlocks : Nat → List Nat → List Nat → List Nat
  | 0, st, _ => st
  | k + 1, st, msg => absorbBlocks k (absorbBlock st (msg.take 136)) (msg.drop 136)

/-- Little-endian byte expansion of a 64-bit lane. -/
def laneToBytes (l : Nat) : List Nat :=
  (List.range 8).map fun i => l / 256 ^ i % 256

/-- Keccak-256 of a byte list, as the 32-byte digest. -/
def keccak256Bytes (msg : List Nat) : List Nat :=
  let padded := keccakPad msg
  let st := absorbBlocks (padded.length / 136) (List.replicate 25 0) padded
  (List.range 4).foldr (fun i acc => laneToBytes (st.getD i 0) ++ acc) []

/-- Big-endian value of a byte list (how a 32-byte digest is read as a number). -/
def bytesToNatBE (bs : List Nat) : Nat :=
  bs.foldl (fun acc b => acc * 256 + b) 0

/-- Big-endian 32-byte expansion of a 256-bit value. -/
def natToBytesBE32 (w : Nat) : List Nat :=
  (List.range 32).map fun i => w / 256 ^ (31 - i) % 256

/-- Keccak-256 of a byte list read as a 256-bit number. -/
def keccak256 (msg : List Nat) : Nat :=
  bytesToNatBE (keccak256Bytes msg)

/-! ## Data model of `standard_binary_tree.rs` -/

/-- The error enum `MerkleTreeError` of the source, with the same variants
(`NotSupportedType` is declared there but never constructed). -/
inductive MerkleTreeError where
  | LeafNotFound
  | InvalidCheck
  | RootHaveNoSiblings
  | NotSupportedType
deriving DecidableEq, Repr

deriving instance DecidableEq for Except

/-- A fragment of the `alloy::dyn_abi::DynSolValue` enum: the two supported
constructors (`string` carries its UTF-8 bytes; `fixedBytes` carries the
32-byte word as a number plus the declared size) and a few representatives
of the unsupported ones. -/
inductive DynSolValue where
  | string : List Nat → DynSolValue
  | fixedBytes : Nat → Nat → DynSolValue
  | bool : Bool → DynSolValue
  | uint : Nat → Nat → DynSolValue
  | address : Nat → DynSolValue
deriving DecidableEq, Repr

/-- Whether the value is one of the two leaf kinds the tree supports. -/
def supportedValue : DynSolValue → Bool
  | .string _ => true
  | .fixedBytes _ _ => true
  | _ => false

/-- One hex character (lowercase) of a nibble, as a byte. -/
def hexDigit (d : Nat) : Nat :=
  if d < 10 then 48 + d else 87 + d

/-- The bytes of the `Display` form of a `B256` word: `0x` followed by 64
lowercase hex characters (the serialization `to_string` used for map keys
of `FixedBytes` leaves; embeds the alloy `Display` instance). -/
def hexKeyBytes (w : Nat) : List Nat :=
  48 :: 120 :: (List.range 32).foldr
    (fun i acc =>
      hexDigit (w / 256 ^ (31 - i) % 256 / 16) :: hexDigit (w / 256 ^ (31 - i) % 256 % 16) :: acc)
    []

/-- The struct `StandardMerkleTree`: flat digest array plus the reverse
index from serialized leaf keys (byte lists) to array positions. -/
structure StandardMerkleTree where
  tree : List Nat
  tree_values : List (List Nat × Nat)
deriving DecidableEq, Repr

/-- `check_valid_value_type`: serialize a value into its map key, or
`none` for the `panic!` on any unsupported kind. -/
def StandardMerkleTree.check_valid_value_type : DynSolValue → Option (List Nat)
  | .string inner_value => some inner_value
  | .fixedBytes inner_value _ => some (hexKeyBytes inner_value)
  | _ => none

/-- The `match` inside `standard_leaf_hash` extracting the raw bytes of a
value (`none` models the `panic!` on unsupported kinds). -/
def leafEncode : DynSolValue → Option (List Nat)
  | .string inner_value => some inner_value
  | .fixedBytes inner_value _ => some (natToBytesBE32 inner_value)
  | _ => none

/-- `standard_leaf_hash`: the double keccak of the encoded value. -/
def standard_leaf_hash (value : DynSolValue) : Option Nat :=
  (leafEncode value).map fun encoded => bytesToNatBE (keccak256Bytes (keccak256Bytes encoded))

/-! ## Index arithmetic -/

/-- `left_child_index`. -/
def left_child_index (index : Nat) : Nat := 2 * index + 1

/-- `right_child_index`. -/
def right_child_index (index : Nat) : Nat := 2 * index + 2

/-- `sibling_index`. -/
def sibling_index (index : Nat) : Except MerkleTreeError Nat :=
  if index = 0 then .error .RootHaveNoSiblings
  else if index % 2 = 0 then .ok (index - 1)
  else .ok (index + 1)

/-- `parent_index`; the source computes `(index - 1) / 2` in `usize` and is
only ever called with `index > 0`, where truncated and exact subtraction
agree. -/
def parent_index (index : Nat) : Nat := (index - 1) / 2

/-- `is_tree_node`. -/
def is_tree_node (tree : List Nat) (index : Nat) : Bool :=
  decide (index < tree.length)

/-- `is_internal_node`. -/
def is_internal_node (tree : List Nat) (index : Nat) : Bool :=
  is_tree_node tree (left_child_index index)

/-- `is_leaf_node`. -/
def is_leaf_node (tree : List Nat) (index : Nat) : Bool :=
  !is_internal_node tree index && is_tree_node tree index

/-- `check_leaf_node`. -/
def check_leaf_node (tree : List Nat) (index : Nat) : Except MerkleTreeError Unit :=
  if !is_leaf_node tree index then .error .InvalidCheck else .ok ()

/-! ## Hashing pairs and building the tree -/

/-- `hash_pair`: sort the two digests (the byte-lexicographic `Ord` of
`B256` coincides with numeric order on the 256-bit values), concatenate
their 32-byte forms, and hash once. -/
def hash_pair (left right : Nat) : Nat :=
  let combined := if left ≤ right then left else right
  let second := if left ≤ right then right else left
  keccak256 (natToBytesBE32 combined ++ natToBytesBE32 second)

/-- Checked `usize` subtraction: `none` models the underflow abort. -/
def checkedSub (a b : Nat) : Option Nat :=
  if b ≤ a then some (a - b) else none

/-- The leaf-placement loop of `make_merkle_tree`: leaf `i` is written at
position `tree.length - 1 - i`. -/
def placeLoop : List Nat → List Nat → Nat → List Nat
  | t, [], _ => t
  | t, leaf :: rest, i => placeLoop (t.set (t.length - 1 - i) leaf) rest (i + 1)

/-- The internal-hash loop of `make_merkle_tree`: processes positions
`m - 1, m - 2, ..., 0`, in that order, setting each to the hash of its
children (reads are in bounds at every reachable call). -/
def hashLoop : List Nat → Nat → List Nat
  | t, 0 => t
  | t, i + 1 =>
    hashLoop (t.set i (hash_pair (t.getD (left_child_index i) 0) (t.getD (right_child_index i) 0))) i

/-- `make_merkle_tree`: `none` models the `2 * leaves.len() - 1` underflow
on an empty input. -/
def make_merkle_tree (leaves : List Nat) : Option (List Nat) :=
  match checkedSub (2 * leaves.length) 1 with
  | none => none
  | some tree_len =>
    let t := placeLoop (List.replicate tree_len 0) leaves 0
    some (hashLoop t (tree_len - leaves.length))

/-! ## Proof generation and verification -/

/-- The `while current_index > 0` loop of `make_proof`, made structural on
a fuel argument; every reachable call has `fuel >= index` (the parent index
strictly decreases), so the fuel-exhaustion branch is dead code, and
`proofLoop_fuel` below proves the result independent of any fuel
`>= index`. -/
def proofLoop (tree : List Nat) : Nat → Nat → Except MerkleTreeError (List Nat)
  | _, 0 => .ok []
  | 0, _ + 1 => .ok []
  | fuel + 1, i + 1 =>
    match sibling_index (i + 1) with
    | .error e => .error e
    | .ok sibling =>
      match proofLoop tree fuel (parent_index (i + 1)) with
      | .error e => .error e
      | .ok rest => .ok (if sibling < tree.length then tree.getD sibling 0 :: rest else rest)

/-- `make_proof`. -/
def make_proof (tree : List Nat) (index : Nat) : Except MerkleTreeError (List Nat) :=
  match check_leaf_node tree index with
  | .error e => .error e
  | .ok _ => proofLoop tree index index

/-- `process_proof`: fold the proof onto the leaf with `hash_pair`. -/
def process_proof (leaf : Nat) (proof : List Nat) : Nat :=
  proof.foldl hash_pair leaf

/-! ## The facade: construction, lookup, verification -/

/-- The key-insertion loop of `StandardMerkleTree::new`; prepending makes
`List.lookup` return the latest insertion for a key, the overwrite
semantics of the `HashMap` (`none` models the `panic!` inside
`check_valid_value_type`). -/
def insertAll : List (DynSolValue × Nat) → List (List Nat × Nat) →
    Option (List (List Nat × Nat))
  | [], m => some m
  | (tree_key, tree_value) :: rest, m =>
    match StandardMerkleTree.check_valid_value_type tree_key with
    | none => none
    | some tree_key_str => insertAll rest ((tree_key_str, tree_value) :: m)

/-- `StandardMerkleTree::new`. -/
def StandardMerkleTree.new (tree : List Nat) (values : List (DynSolValue × Nat)) :
    Option StandardMerkleTree :=
  (insertAll values []).map fun tree_values => ⟨tree, tree_values⟩

/-- Map a fallible function over a list, stopping at the first `none`:
the embedding of an iterator `map` whose body can `panic!`. -/
def mapOpt (f : α → Option β) : List α → Option (List β)
  | [] => some []
  | x :: xs =>
    match f x, mapOpt f xs with
    | some y, some ys => some (y :: ys)
    | _, _ => none

/-- `StandardMerkleTree::of`: hash all values, build the tree, and index
value `i` at position `tree.len() - i - 1`. -/
def StandardMerkleTree.of (values : List DynSolValue) : Option StandardMerkleTree :=
  match mapOpt standard_leaf_hash values with
  | none => none
  | some hashed_values_hash =>
    match make_merkle_tree hashed_values_hash with
    | none => none
    | some tree =>
      StandardMerkleTree.new tree
        (values.zip ((List.range values.length).map fun i => tree.length - i - 1))

/-- `StandardMerkleTree::root`; the `self.tree[0]` index panics on an empty
array, hence the `Option`. -/
def StandardMerkleTree.root (t : StandardMerkleTree) : Option Nat :=
  t.tree[0]?

/-- `StandardMerkleTree::get_proof`; the outer `Option` models the
`panic!` inside `check_valid_value_type`, the inner `Except` the returned
`Result`. -/
def StandardMerkleTree.get_proof (t : StandardMerkleTree) (value : DynSolValue) :
    Option (Except MerkleTreeError (List Nat)) :=
  (StandardMerkleTree.check_valid_value_type value).map fun tree_key =>
    match List.lookup tree_key t.tree_values with
    | none => .error .LeafNotFound
    | some tree_index => make_proof t.tree tree_index

/-- `StandardMerkleTree::verify_proof`; `none` models the `panic!` inside
`get_leaf_hash` on an unsupported value or the `self.tree[0]` index on an
empty tree. -/
def StandardMerkleTree.verify_proof (t : StandardMerkleTree) (leaf : DynSolValue)
    (proof : List Nat) : Option Bool :=
  (standard_leaf_hash leaf).bind fun leaf_hash =>
    t.tree[0]?.map fun root => root == process_proof leaf_hash proof

/-! ## List access helpers -/

theorem getD_set_self (l : List Nat) (i v : Nat) (h : i < l.length) :
    (l.set i v).getD i 0 = v := by
  simp [List.getD_eq_getElem?_getD, List.getElem?_set_self h]

theorem getD_set_ne (l : List Nat) (i j v : Nat) (h : i ≠ j) :
    (l.set i v).getD j 0 = l.getD j 0 := by
  simp [List.getD_eq_getElem?_getD, List.getElem?_set_ne h]

theorem getD_replicate (n m : Nat) : (List.replicate n (0 : Nat)).getD m 0 = 0 := by
  simp [List.getD_eq_getElem?_getD, List.getElem?_replicate]
  split <;> simp

theorem getD_range_map (n j : Nat) (f : Nat → Nat) (h : j < n) :
    ((List.range n).map f).getD j 0 = f j := by
  simp [List.getD_eq_getElem?_getD, List.getElem?_range h]

/-! ## The functional specification of the built tree -/

/-- The value `make_merkle_tree` leaves at position `i`: a stored leaf
digest on the tail, the sorted pair hash of the two children elsewhere. -/
def treeSpec (leaves : List Nat) (i : Nat) : Nat :=
  if leaves.length - 1 ≤ i then leaves.getD (2 * leaves.length - 2 - i) 0
  else hash_pair (treeSpec leaves (2 * i + 1)) (treeSpec leaves (2 * i + 2))
termination_by 2 * leaves.length - 1 - i
decreasing_by
  all_goals omega

theorem treeSpec_leaf {leaves : List Nat} {i : Nat} (h : leaves.length - 1 ≤ i) :
    treeSpec leaves i = leaves.getD (2 * leaves.length - 2 - i) 0 := by
  rw [treeSpec, if_pos h]

theorem treeSpec_internal {leaves : List Nat} {i : Nat} (h : i < leaves.length - 1) :
    treeSpec leaves i =
      hash_pair (treeSpec leaves (2 * i + 1)) (treeSpec leaves (2 * i + 2)) := by
  rw [treeSpec, if_neg (Nat.not_le.2 h)]

/-! ## The two loops of `make_merkle_tree` -/

theorem placeLoop_length (ls : List Nat) : ∀ (t : List Nat) (i : Nat),
    (placeLoop t ls i).length = t.length := by
  induction ls with
  | nil => intro t i; rfl
  | cons l rest ih => intro t i; rw [placeLoop, ih]; simp

theorem placeLoop_getD (ls : List Nat) : ∀ (t : List Nat) (i j : Nat),
    j < t.length → i + ls.length ≤ t.length →
    (placeLoop t ls i).getD j 0 =
      if i ≤ t.length - 1 - j ∧ t.length - 1 - j < i + ls.length
      then ls.getD (t.length - 1 - j - i) 0 else t.getD j 0 := by
  induction ls with
  | nil =>
    intro t i j hj _
    have h0 : ([] : List Nat).length = 0 := rfl
    rw [if_neg (by omega)]
    rfl
  | cons l rest ih =>
    intro t i j hj hle
    have hset : (t.set (t.length - 1 - i) l).length = t.length := by simp
    have hcons : (l :: rest).length = rest.length + 1 := rfl
    rw [placeLoop]
    rw [ih (t.set (t.length - 1 - i) l) (i + 1) j (by rw [hset]; omega) (by rw [hset]; omega)]
    rw [hset, hcons]
    by_cases h1 : i + 1 ≤ t.length - 1 - j ∧ t.length - 1 - j < i + 1 + rest.length
    · rw [if_pos h1, if_pos (by omega)]
      have heq : t.length - 1 - j - i = (t.length - 1 - j - (i + 1)) + 1 := by omega
      rw [heq, List.getD_cons_succ]
    · rw [if_neg h1]
      by_cases h2 : t.length - 1 - j = i
      · have hji : j = t.length - 1 - i := by omega
        rw [if_pos (by omega)]
        have h0 : t.length - 1 - j - i = 0 := by omega
        rw [h0, List.getD_cons_zero, hji]
        exact getD_set_self t (t.length - 1 - i) l (by omega)
      · rw [if_neg (by omega)]
        exact getD_set_ne t (t.length - 1 - i) j l (by omega)

theorem hashLoop_length (m : Nat) : ∀ (t : List Nat),
    (hashLoop t m).length = t.length := by
  induction m with
  | zero => intro t; rfl
  | succ k ih => intro t; rw [hashLoop, ih]; simp

theorem hashLoop_getD (leaves : List Nat) (m : Nat) : ∀ (t : List Nat),
    t.length = 2 * leaves.length - 1 → m ≤ leaves.length - 1 →
    (∀ j, m ≤ j → j < t.length → t.getD j 0 = treeSpec leaves j) →
    ∀ j, j < t.length → (hashLoop t m).getD j 0 = treeSpec leaves j := by
  induction m with
  | zero =>
    intro t _ _ hinv j hj
    exact hinv j (Nat.zero_le j) hj
  | succ k ih =>
    intro t hlen hm hinv j hj
    rw [hashLoop]
    have hset : (t.set k (hash_pair (t.getD (left_child_index k) 0)
        (t.getD (right_child_index k) 0))).length = t.length := by simp
    refine ih _ (by rw [hset, hlen]) (by omega) ?_ j (by rw [hset]; omega)
    intro j' hj' hj'len
    rw [hset] at hj'len
    rcases Nat.eq_or_lt_of_le hj' with heq | hlt
    · rw [← heq]
      rw [getD_set_self t k _ (by omega)]
      have hl : left_child_index k = 2 * k + 1 := rfl
      have hr : right_child_index k = 2 * k + 2 := rfl
      rw [hl, hr,
          hinv (2 * k + 1) (by omega) (by omega),
          hinv (2 * k + 2) (by omega) (by omega)]
      exact (treeSpec_internal (by omega)).symm
    · rw [getD_set_ne t k j' _ (by omega)]
      exact hinv j' (by omega) (by omega)

/-- Full characterization of a successful `make_merkle_tree`. -/
theorem make_merkle_tree_eq (leaves : List Nat) (hne : leaves ≠ []) :
    ∃ T, make_merkle_tree leaves = some T ∧ T.length = 2 * leaves.length - 1 ∧
      ∀ j, j < T.length → T.getD j 0 = treeSpec leaves j := by
  have hn : 1 ≤ leaves.length := List.length_pos.2 hne
  have hsub : checkedSub (2 * leaves.length) 1 = some (2 * leaves.length - 1) := by
    rw [checkedSub, if_pos (by omega)]
  rw [make_merkle_tree, hsub]
  have hplen : (placeLoop (List.replicate (2 * leaves.length - 1) 0) leaves 0).length =
      2 * leaves.length - 1 := by rw [placeLoop_length]; simp
  refine ⟨_, rfl, ?_, ?_⟩
  · rw [hashLoop_length, hplen]
  · intro j hj
    rw [hashLoop_length, hplen] at hj
    refine hashLoop_getD leaves _ _ hplen (by omega) ?_ j (by rw [hplen]; omega)
    intro j' hj' hj'len
    rw [hplen] at hj'len
    rw [placeLoop_getD leaves _ 0 j' (by simp; omega) (by simp; omega)]
    simp only [List.length_replicate]
    rw [if_pos (by omega)]
    have harith : 2 * leaves.length - 1 - 1 - j' - 0 = 2 * leaves.length - 2 - j' := by omega
    rw [harith, treeSpec_leaf (by omega)]

/-! ## Pair hashing -/

theorem hash_pair_comm (a b : Nat) : hash_pair a b = hash_pair b a := by
  rw [hash_pair, hash_pair]
  rcases Nat.lt_trichotomy a b with h | h | h
  · simp only [if_pos (Nat.le_of_lt h), if_neg (Nat.not_le.2 h)]
  · rw [h]
  · simp only [if_neg (Nat.not_le.2 h), if_pos (Nat.le_of_lt h)]

/-- The internal-node invariant holds for every tree `make_merkle_tree`
builds. -/
theorem make_merkle_tree_internal_inv (leaves T : List Nat) (hne : leaves ≠ [])
    (hT : make_merkle_tree leaves = some T) :
    ∀ i, 2 * i + 1 < T.length →
      T.getD i 0 = hash_pair (T.getD (2 * i + 1) 0) (T.getD (2 * i + 2) 0) := by
  obtain ⟨T', hT', hlen, hspec⟩ := make_merkle_tree_eq leaves hne
  rw [hT] at hT'
  cases hT'
  intro i hi
  have hn : 1 ≤ leaves.length := List.length_pos.2 hne
  rw [hspec i (by omega), hspec (2 * i + 1) (by omega), hspec (2 * i + 2) (by omega)]
  exact treeSpec_internal (by omega)

/-! ## The proof-generation loop -/

/-- Number of parent steps from a position up to the root. -/
def stepsToRoot : Nat → Nat
  | 0 => 0
  | i + 1 => stepsToRoot (parent_index (i + 1)) + 1
termination_by i => i
decreasing_by
  simp [parent_index]
  omega

theorem stepsToRoot_zero : stepsToRoot 0 = 0 := by
  rw [stepsToRoot]

theorem stepsToRoot_succ (i : Nat) :
    stepsToRoot (i + 1) = stepsToRoot (parent_index (i + 1)) + 1 := by
  rw [stepsToRoot]

/-- The fuel argument of `proofLoop` is irrelevant above the index. -/
theorem proofLoop_fuel (tree : List Nat) (i : Nat) :
    ∀ f g, i ≤ f → i ≤ g → proofLoop tree f i = proofLoop tree g i := by
  induction i using Nat.strong_induction_on with
  | _ i ih =>
    match i with
    | 0 =>
      intro f g _ _
      cases f <;> cases g <;> rfl
    | j + 1 =>
      intro f g hf hg
      match f, hf with
      | f' + 1, hf =>
        match g, hg with
        | g' + 1, hg =>
          have hp : parent_index (j + 1) < j + 1 := by simp [parent_index]; omega
          have hpf : parent_index (j + 1) ≤ f' := by simp [parent_index]; omega
          have hpg : parent_index (j + 1) ≤ g' := by simp [parent_index]; omega
          simp only [proofLoop]
          rw [ih (parent_index (j + 1)) hp f' g' hpf hpg]

/-- Walking the proof loop from any in-range position and folding the
collected siblings onto that position reproduces the digest at the root;
every sibling on the way is in range, so the proof has exactly one entry
per level. -/
theorem proofLoop_process (T : List Nat) (n : Nat) (hn : 1 ≤ n)
    (hlen : T.length = 2 * n - 1)
    (hint : ∀ i, 2 * i + 1 < T.length →
      T.getD i 0 = hash_pair (T.getD (2 * i + 1) 0) (T.getD (2 * i + 2) 0)) :
    ∀ p, p < T.length → ∃ ps, proofLoop T p p = .ok ps ∧
      process_proof (T.getD p 0) ps = T.getD 0 0 ∧ ps.length = stepsToRoot p := by
  intro p
  induction p using Nat.strong_induction_on with
  | _ p ih =>
    match p with
    | 0 =>
      intro _
      exact ⟨[], rfl, rfl, by rw [stepsToRoot_zero]; rfl⟩
    | j + 1 =>
      intro hp
      set q := parent_index (j + 1) with hq
      have hqlt : q < j + 1 := by simp [hq, parent_index]; omega
      obtain ⟨rest, hrest, hrproc, hrlen⟩ := ih q hqlt (by omega)
      have hfuel : proofLoop T j q = proofLoop T q q := by
        refine proofLoop_fuel T q j q ?_ (Nat.le_refl q)
        simp [hq, parent_index]; omega
      rcases Nat.even_or_odd (j + 1) with he | ho
      · -- even position: the sibling is one to the left
        have hmod : (j + 1) % 2 = 0 := Nat.even_iff.1 he
        have hsib : sibling_index (j + 1) = .ok j := by
          rw [sibling_index, if_neg (by omega), if_pos hmod]
          rfl
        have hqchild : j = 2 * q + 1 ∧ j + 1 = 2 * q + 2 := by
          constructor <;> (simp [hq, parent_index]; omega)
        refine ⟨T.getD j 0 :: rest, ?_, ?_, ?_⟩
        · simp only [proofLoop, hsib, hfuel, hrest]
          rw [if_pos (by omega)]
        · rw [process_proof, List.foldl_cons]
          have : hash_pair (T.getD (j + 1) 0) (T.getD j 0) = T.getD q 0 := by
            rw [hash_pair_comm, hint q (by omega), ← hqchild.1, ← hqchild.2]
          rw [this]
          exact hrproc
        · rw [List.length_cons, hrlen, stepsToRoot_succ, ← hq]
      · -- odd position: the sibling is one to the right, still in range
        -- because the array length 2 * n - 1 is odd
        have hmod : (j + 1) % 2 = 1 := Nat.odd_iff.1 ho
        have hsib : sibling_index (j + 1) = .ok (j + 2) := by
          rw [sibling_index, if_neg (by omega), if_neg (by omega)]
        have hqchild : j + 1 = 2 * q + 1 ∧ j + 2 = 2 * q + 2 := by
          constructor <;> (simp [hq, parent_index]; omega)
        have hsrange : j + 2 < T.length := by omega
        refine ⟨T.getD (j + 2) 0 :: rest, ?_, ?_, ?_⟩
        · simp only [proofLoop, hsib, hfuel, hrest]
          rw [if_pos hsrange]
        · rw [process_proof, List.foldl_cons]
          have : hash_pair (T.getD (j + 1) 0) (T.getD (j + 2) 0) = T.getD q 0 := by
            rw [hint q (by omega), ← hqchild.1, ← hqchild.2]
          rw [this]
          exact hrproc
        · rw [List.length_cons, hrlen, stepsToRoot_succ, ← hq]

/-! ## Lemmas about the fallible map and the reverse index -/

theorem mapOpt_length (f : α → Option β) : ∀ {xs : List α} {ys : List β},
    mapOpt f xs = some ys → ys.length = xs.length := by
  intro xs
  induction xs with
  | nil => intro ys h; cases h; rfl
  | cons x rest ih =>
    intro ys h
    rw [mapOpt] at h
    cases hfx : f x with
    | none => rw [hfx] at h; cases h
    | some y =>
      rw [hfx] at h
      cases hrest : mapOpt f rest with
      | none => rw [hrest] at h; cases h
      | some ys' =>
        rw [hrest] at h
        cases h
        simp [ih hrest]

theorem mapOpt_getElem? (f : α → Option β) : ∀ {xs : List α} {ys : List β},
    mapOpt f xs = some ys → ∀ i : Nat, ys[i]? = (xs[i]?).bind f := by
  intro xs
  induction xs with
  | nil => intro ys h i; cases h; simp
  | cons x rest ih =>
    intro ys h i
    rw [mapOpt] at h
    cases hfx : f x with
    | none => rw [hfx] at h; cases h
    | some y =>
      rw [hfx] at h
      cases hrest : mapOpt f rest with
      | none => rw [hrest] at h; cases h
      | some ys' =>
        rw [hrest] at h
        cases h
        cases i with
        | zero => simp [hfx]
        | succ i' => simp [ih hrest i']

theorem mapOpt_isSome (f : α → Option β) : ∀ (xs : List α),
    (∀ x ∈ xs, (f x).isSome) → ∃ ys, mapOpt f xs = some ys := by
  intro xs
  induction xs with
  | nil => intro _; exact ⟨[], rfl⟩
  | cons x rest ih =>
    intro h
    obtain ⟨y, hy⟩ := Option.isSome_iff_exists.1 (h x (List.mem_cons_self x rest))
    obtain ⟨ys, hys⟩ := ih fun z hz => h z (List.mem_cons_of_mem x hz)
    exact ⟨y :: ys, by rw [mapOpt, hy, hys]⟩

theorem mapOpt_none_of_mem (f : α → Option β) : ∀ {xs : List α} {x : α},
    x ∈ xs → f x = none → mapOpt f xs = none := by
  intro xs
  induction xs with
  | nil => intro x hx; cases hx
  | cons z rest ih =>
    intro x hx hfx
    rw [mapOpt]
    rcases List.mem_cons.1 hx with rfl | hmem
    · rw [hfx]
    · rw [ih hmem hfx]
      cases f z <;> rfl

theorem insertAll_total : ∀ (values : List DynSolValue) (ks : List (List Nat))
    (ps : List Nat) (m : List (List Nat × Nat)),
    mapOpt StandardMerkleTree.check_valid_value_type values = some ks →
    ∃ m', insertAll (values.zip ps) m = some m' := by
  intro values
  induction values with
  | nil => intro ks ps m _; exact ⟨m, rfl⟩
  | cons v rest ih =>
    intro ks ps m h
    rw [mapOpt] at h
    cases hk : StandardMerkleTree.check_valid_value_type v with
    | none => rw [hk] at h; cases h
    | some kk =>
      rw [hk] at h
      cases hrest : mapOpt StandardMerkleTree.check_valid_value_type rest with
      | none => rw [hrest] at h; cases h
      | some ks' =>
        cases ps with
        | nil => exact ⟨m, rfl⟩
        | cons p ps' =>
          obtain ⟨m', hm'⟩ := ih ks' ps' ((kk, p) :: m) hrest
          refine ⟨m', ?_⟩
          rw [List.zip_cons_cons, insertAll, hk]
          exact hm'

theorem insertAll_lookup_not_mem :
    ∀ (values : List DynSolValue) (ks : List (List Nat)) (ps : List Nat)
      (m m' : List (List Nat × Nat)) (k : List Nat),
    mapOpt StandardMerkleTree.check_valid_value_type values = some ks →
    insertAll (values.zip ps) m = some m' →
    k ∉ ks →
    List.lookup k m' = List.lookup k m := by
  intro values
  induction values with
  | nil =>
    intro ks ps m m' k _ hins _
    cases hins; rfl
  | cons v rest ih =>
    intro ks ps m m' k hks hins hk
    rw [mapOpt] at hks
    cases hkv : StandardMerkleTree.check_valid_value_type v with
    | none => rw [hkv] at hks; cases hks
    | some kk =>
      rw [hkv] at hks
      cases hrest : mapOpt StandardMerkleTree.check_valid_value_type rest with
      | none => rw [hrest] at hks; cases hks
      | some ks' =>
        rw [hrest] at hks
        cases hks
        cases ps with
        | nil =>
          cases hins; rfl
        | cons p ps' =>
          rw [List.zip_cons_cons, insertAll, hkv] at hins
          replace hins : insertAll (rest.zip ps') ((kk, p) :: m) = some m' := hins
          have hkk : k ≠ kk := fun h => hk (h ▸ List.mem_cons_self kk ks')
          have hks' : k ∉ ks' := fun h => hk (List.mem_cons_of_mem kk h)
          rw [ih ks' ps' ((kk, p) :: m) m' k hrest hins hks']
          simp [List.lookup, beq_eq_false_iff_ne.2 hkk]

theorem insertAll_lookup_mem :
    ∀ (values : List DynSolValue) (ks : List (List Nat)) (ps : List Nat)
      (m m' : List (List Nat × Nat)) (k : List Nat),
    mapOpt StandardMerkleTree.check_valid_value_type values = some ks →
    ps.length = values.length →
    insertAll (values.zip ps) m = some m' →
    k ∈ ks →
    ∃ j, j < ks.length ∧ ks.getD j [] = k ∧ List.lookup k m' = some (ps.getD j 0) := by
  intro values
  induction values with
  | nil =>
    intro ks ps m m' k hks _ _ hk
    cases hks; cases hk
  | cons v rest ih =>
    intro ks ps m m' k hks hlen hins hk
    rw [mapOpt] at hks
    cases hkv : StandardMerkleTree.check_valid_value_type v with
    | none => rw [hkv] at hks; cases hks
    | some kk =>
      rw [hkv] at hks
      cases hrest : mapOpt StandardMerkleTree.check_valid_value_type rest with
      | none => rw [hrest] at hks; cases hks
      | some ks' =>
        rw [hrest] at hks
        cases hks
        cases ps with
        | nil => cases hlen
        | cons p ps' =>
          rw [List.zip_cons_cons, insertAll, hkv] at hins
          replace hins : insertAll (rest.zip ps') ((kk, p) :: m) = some m' := hins
          by_cases hmem : k ∈ ks'
          · obtain ⟨j, hj, hkj, hlook⟩ :=
              ih ks' ps' ((kk, p) :: m) m' k hrest (by simpa using hlen) hins hmem
            exact ⟨j + 1, by simpa using hj, by simpa using hkj, by simpa using hlook⟩
          · have hkk : k = kk := by
              rcases List.mem_cons.1 hk with h | h
              · exact h
              · exact absurd h hmem
            refine ⟨0, by simp, by simp [hkk], ?_⟩
            rw [insertAll_lookup_not_mem rest ks' ps' ((kk, p) :: m) m' k hrest hins hmem]
            simp [List.lookup, hkk]

/-! ## Decomposing a successful `of` -/

theorem supported_check_isSome (v : DynSolValue) (h : supportedValue v = true) :
    (StandardMerkleTree.check_valid_value_type v).isSome := by
  cases v <;> simp_all [supportedValue, StandardMerkleTree.check_valid_value_type]

theorem supported_hash_isSome (v : DynSolValue) (h : supportedValue v = true) :
    (standard_leaf_hash v).isSome := by
  cases v <;> simp_all [supportedValue, standard_leaf_hash, leafEncode]

theorem getElem?_zero_eq_getD (T : List Nat) (h : 0 < T.length) :
    T[0]? = some (T.getD 0 0) := by
  simp [List.getD_eq_getElem?_getD, List.getElem?_eq_getElem h]

/-- Everything a successful `of` produces: the leaf hashes, the serialized
keys, the tree array with its `treeSpec` contents, and the reverse index. -/
theorem of_parts (values : List DynSolValue)
    (hne : values ≠ [])
    (hsup : ∀ a ∈ values, supportedValue a = true) :
    ∃ hs ks T m',
      mapOpt standard_leaf_hash values = some hs ∧
      mapOpt StandardMerkleTree.check_valid_value_type values = some ks ∧
      make_merkle_tree hs = some T ∧
      insertAll (values.zip ((List.range values.length).map fun i => T.length - i - 1)) []
        = some m' ∧
      StandardMerkleTree.of values = some ⟨T, m'⟩ ∧
      hs.length = values.length ∧ ks.length = values.length ∧
      T.length = 2 * values.length - 1 ∧
      (∀ j, j < T.length → T.getD j 0 = treeSpec hs j) := by
  obtain ⟨hs, hhs⟩ := mapOpt_isSome standard_leaf_hash values
    fun x hx => supported_hash_isSome x (hsup x hx)
  obtain ⟨ks, hks⟩ := mapOpt_isSome StandardMerkleTree.check_valid_value_type values
    fun x hx => supported_check_isSome x (hsup x hx)
  have hlenhs : hs.length = values.length := mapOpt_length standard_leaf_hash hhs
  have hlenks : ks.length = values.length := mapOpt_length StandardMerkleTree.check_valid_value_type hks
  have hn : 0 < values.length := List.length_pos.2 hne
  have hhsne : hs ≠ [] := by
    intro h
    rw [h] at hlenhs
    simp at hlenhs
    omega
  obtain ⟨T, hT, hTlen, hTspec⟩ := make_merkle_tree_eq hs hhsne
  obtain ⟨m', hm'⟩ := insertAll_total values ks
    ((List.range values.length).map fun i => T.length - i - 1) [] hks
  refine ⟨hs, ks, T, m', hhs, hks, hT, hm', ?_, hlenhs, hlenks, by rw [hTlen, hlenhs], hTspec⟩
  rw [StandardMerkleTree.of, hhs]
  show (match make_merkle_tree hs with
    | none => none
    | some tree => StandardMerkleTree.new tree
        (values.zip ((List.range values.length).map fun i => tree.length - i - 1)))
    = some ⟨T, m'⟩
  rw [hT]
  show StandardMerkleTree.new T
    (values.zip ((List.range values.length).map fun i => T.length - i - 1)) = some ⟨T, m'⟩
  rw [StandardMerkleTree.new, hm']
  rfl

/-- A key present in the reverse index of a tree built by `of` resolves to
a leaf position whose `make_proof` succeeds and folds back to the root. -/
theorem lookup_leaf_make_proof (values : List DynSolValue) (ks : List (List Nat))
    (T : List Nat) (m' : List (List Nat × Nat)) (k : List Nat)
    (hks : mapOpt StandardMerkleTree.check_valid_value_type values = some ks)
    (hm' : insertAll (values.zip ((List.range values.length).map fun i => T.length - i - 1)) []
      = some m')
    (hlenks : ks.length = values.length)
    (hTlen : T.length = 2 * values.length - 1)
    (hn : 0 < values.length)
    (hint : ∀ i, 2 * i + 1 < T.length →
      T.getD i 0 = hash_pair (T.getD (2 * i + 1) 0) (T.getD (2 * i + 2) 0))
    (hkmem : k ∈ ks) :
    ∃ j proof, j < values.length ∧ ks.getD j [] = k ∧
      List.lookup k m' = some (T.length - j - 1) ∧
      make_proof T (T.length - j - 1) = .ok proof ∧
      process_proof (T.getD (T.length - j - 1) 0) proof = T.getD 0 0 ∧
      proof.length = stepsToRoot (T.length - j - 1) := by
  obtain ⟨j, hj, hkj, hlook⟩ := insertAll_lookup_mem values ks
    ((List.range values.length).map fun i => T.length - i - 1) [] m' k hks (by simp) hm' hkmem
  have hjn : j < values.length := by omega
  simp only [getD_range_map _ _ _ hjn] at hlook
  have hplt : T.length - j - 1 < T.length := by omega
  have hleaf : is_leaf_node T (T.length - j - 1) = true := by
    rw [is_leaf_node, is_internal_node, is_tree_node, is_tree_node, left_child_index]
    rw [decide_eq_false (by omega : ¬(2 * (T.length - j - 1) + 1 < T.length))]
    rw [decide_eq_true (by omega : T.length - j - 1 < T.length)]
    rfl
  have hchk : check_leaf_node T (T.length - j - 1) = .ok () := by
    rw [check_leaf_node, if_neg (by rw [hleaf]; simp)]
  obtain ⟨proof, hloop, hproc, hplen⟩ := proofLoop_process T values.length hn hTlen hint
    (T.length - j - 1) hplt
  refine ⟨j, proof, hjn, hkj, hlook, ?_, hproc, hplen⟩
  rw [make_proof, hchk]
  exact hloop

/-! ## The claims -/

/-- C2: for all digests, `hash_pair` sorts its two arguments by numeric
order (the byte-lexicographic order of `B256`), concatenates their 32-byte
forms, applies the hash primitive exactly once, and is therefore
commutative. -/
theorem hash_pair_sorted_and_comm (a b : Nat) :
    hash_pair a b = keccak256 (natToBytesBE32 (min a b) ++ natToBytesBE32 (max a b)) ∧
    hash_pair a b = hash_pair b a := by
  constructor
  · rw [hash_pair, Nat.min_def, Nat.max_def]
  · exact hash_pair_comm a b

/-- C3: for nonempty leaves the built array has length `2 * n - 1` and the
leaf digest with input position `k` sits at array position
`(2 * n - 1) - 1 - k`. -/
theorem tree_layout (leaves : List Nat) (hne : leaves ≠ []) :
    ∃ T, make_merkle_tree leaves = some T ∧
      T.length = 2 * leaves.length - 1 ∧
      ∀ k, k < leaves.length →
        T.getD (2 * leaves.length - 1 - 1 - k) 0 = leaves.getD k 0 := by
  obtain ⟨T, hT, hlen, hspec⟩ := make_merkle_tree_eq leaves hne
  have hn : 0 < leaves.length := List.length_pos.2 hne
  refine ⟨T, hT, hlen, fun k hk => ?_⟩
  rw [hspec _ (by omega), treeSpec_leaf (by omega)]
  have harith : 2 * leaves.length - 2 - (2 * leaves.length - 1 - 1 - k) = k := by omega
  rw [harith]

/-- Witness for C3 at the concrete two-leaf input `[3, 5]`. -/
theorem tree_layout_witness :
    ([3, 5] : List Nat) ≠ [] ∧
    ∃ T, make_merkle_tree [3, 5] = some T ∧ T.length = 2 * ([3, 5] : List Nat).length - 1 ∧
      ∀ k, k < ([3, 5] : List Nat).length →
        T.getD (2 * ([3, 5] : List Nat).length - 1 - 1 - k) 0 = ([3, 5] : List Nat).getD k 0 :=
  ⟨by decide, tree_layout [3, 5] (by decide)⟩

/-- C4: in every built array each internal position holds the pair hash of
its two children, and `root` reads array position 0. -/
theorem internal_hash_invariant (leaves : List Nat) (hne : leaves ≠ []) :
    ∃ T, make_merkle_tree leaves = some T ∧
      (∀ i, 2 * i + 1 < T.length →
        T.getD i 0 = hash_pair (T.getD (2 * i + 1) 0) (T.getD (2 * i + 2) 0)) ∧
      ∀ tv, (StandardMerkleTree.mk T tv).root = some (T.getD 0 0) := by
  obtain ⟨T, hT, hlen, _⟩ := make_merkle_tree_eq leaves hne
  have hn : 0 < leaves.length := List.length_pos.2 hne
  exact ⟨T, hT, make_merkle_tree_internal_inv leaves T hne hT,
    fun tv => getElem?_zero_eq_getD T (by omega)⟩

/-- Witness for C4 at the concrete two-leaf input `[3, 5]`. -/
theorem internal_hash_invariant_witness :
    ([3, 5] : List Nat) ≠ [] ∧
    ∃ T, make_merkle_tree [3, 5] = some T ∧
      (∀ i, 2 * i + 1 < T.length →
        T.getD i 0 = hash_pair (T.getD (2 * i + 1) 0) (T.getD (2 * i + 2) 0)) ∧
      ∀ tv, (StandardMerkleTree.mk T tv).root = some (T.getD 0 0) :=
  ⟨by decide, internal_hash_invariant [3, 5] (by decide)⟩

/-- C8: the index arithmetic: children at `2 i + 1` and `2 i + 2`, the
sibling of the root is an error, otherwise one left for even and one right
for odd positions, and the parent is `(i - 1) / 2` for positive `i`. -/
theorem index_arithmetic (i : Nat) :
    left_child_index i = 2 * i + 1 ∧
    right_child_index i = 2 * i + 2 ∧
    sibling_index 0 = .error .RootHaveNoSiblings ∧
    (0 < i → i % 2 = 0 → sibling_index i = .ok (i - 1)) ∧
    (i % 2 = 1 → sibling_index i = .ok (i + 1)) ∧
    (0 < i → parent_index i = (i - 1) / 2) := by
  refine ⟨rfl, rfl, rfl, fun h0 h2 => ?_, fun h2 => ?_, fun _ => rfl⟩
  · rw [sibling_index, if_neg (by omega), if_pos h2]
  · rw [sibling_index, if_neg (by omega), if_neg (by omega)]

/-- Witness for C8 at the concrete indices 2 and 3. -/
theorem index_arithmetic_witness :
    sibling_index 2 = .ok 1 ∧ sibling_index 3 = .ok 4 ∧ parent_index 2 = 0 :=
  ⟨(index_arithmetic 2).2.2.2.1 (by decide) (by decide),
   (index_arithmetic 3).2.2.2.2.1 (by decide),
   (index_arithmetic 2).2.2.2.2.2 (by decide)⟩

/-- C10: in a built array every non-root position has its sibling inside
the array (the length `2 * n - 1` is odd), so the out-of-range skip in the
proof loop never fires and the proof collects exactly one digest per
parent step up to the root. -/
theorem sibling_in_range_and_proof_length (leaves : List Nat) (hne : leaves ≠ []) :
    ∃ T, make_merkle_tree leaves = some T ∧
      (∀ p, 0 < p → p < T.length → ∃ s, sibling_index p = .ok s ∧ s < T.length) ∧
      (∀ p, leaves.length - 1 ≤ p → p < T.length →
        ∃ proof, make_proof T p = .ok proof ∧ proof.length = stepsToRoot p) := by
  obtain ⟨T, hT, hlen, _⟩ := make_merkle_tree_eq leaves hne
  have hn : 0 < leaves.length := List.length_pos.2 hne
  have hint := make_merkle_tree_internal_inv leaves T hne hT
  refine ⟨T, hT, fun p hp0 hplt => ?_, fun p hpge hplt => ?_⟩
  · rcases Nat.even_or_odd p with he | ho
    · have hm : p % 2 = 0 := Nat.even_iff.1 he
      exact ⟨p - 1, by rw [sibling_index, if_neg (by omega), if_pos hm], by omega⟩
    · have hm : p % 2 = 1 := Nat.odd_iff.1 ho
      exact ⟨p + 1, by rw [sibling_index, if_neg (by omega), if_neg (by omega)], by omega⟩
  · have hleaf : is_leaf_node T p = true := by
      rw [is_leaf_node, is_internal_node, is_tree_node, is_tree_node, left_child_index]
      rw [decide_eq_false (by omega : ¬(2 * p + 1 < T.length))]
      rw [decide_eq_true (by omega : p < T.length)]
      rfl
    have hchk : check_leaf_node T p = .ok () := by
      rw [check_leaf_node, if_neg (by rw [hleaf]; simp)]
    obtain ⟨proof, hloop, _, hplen⟩ := proofLoop_process T leaves.length hn hlen hint p hplt
    refine ⟨proof, ?_, hplen⟩
    rw [make_proof, hchk]
    exact hloop

/-- Witness for C10 at the concrete unbalanced three-leaf input `[3, 5, 9]`. -/
theorem sibling_in_range_and_proof_length_witness :
    ([3, 5, 9] : List Nat) ≠ [] ∧
    ∃ T, make_merkle_tree [3, 5, 9] = some T ∧
      (∀ p, 0 < p → p < T.length → ∃ s, sibling_index p = .ok s ∧ s < T.length) ∧
      (∀ p, ([3, 5, 9] : List Nat).length - 1 ≤ p → p < T.length →
        ∃ proof, make_proof T p = .ok proof ∧ proof.length = stepsToRoot p) :=
  ⟨by decide, sibling_in_range_and_proof_length [3, 5, 9] (by decide)⟩

/-- C5 (the code, not the claim): on any value that is neither text nor a
fixed byte string, classification and leaf hashing panic (modelled as
`none`), at construction and at query time alike, instead of returning the
declared but never constructed `NotSupportedType` error. -/
theorem unsupported_value_panics (v : DynSolValue) (hv : supportedValue v = false) :
    StandardMerkleTree.check_valid_value_type v = none ∧
    standard_leaf_hash v = none ∧
    (∀ (t : StandardMerkleTree) (proof : List Nat),
      t.get_proof v = none ∧ t.verify_proof v proof = none) ∧
    ∀ vs, v ∈ vs → StandardMerkleTree.of vs = none := by
  have hc : StandardMerkleTree.check_valid_value_type v = none := by
    cases v <;> simp_all [supportedValue, StandardMerkleTree.check_valid_value_type]
  have hh : standard_leaf_hash v = none := by
    cases v <;> simp_all [supportedValue, standard_leaf_hash, leafEncode]
  refine ⟨hc, hh, fun t proof => ⟨?_, ?_⟩, fun vs hmem => ?_⟩
  · rw [StandardMerkleTree.get_proof, hc]
    rfl
  · rw [StandardMerkleTree.verify_proof, hh]
    rfl
  · rw [StandardMerkleTree.of, mapOpt_none_of_mem standard_leaf_hash hmem hh]

/-- Witness for C5 at the concrete unsupported value `Bool(true)`. -/
theorem unsupported_value_panics_witness :
    supportedValue (DynSolValue.bool true) = false ∧
    StandardMerkleTree.of [DynSolValue.bool true] = none ∧
    StandardMerkleTree.get_proof ⟨[], []⟩ (DynSolValue.bool true) = none :=
  ⟨by decide,
   (unsupported_value_panics (DynSolValue.bool true) (by decide)).2.2.2
     [DynSolValue.bool true] (List.mem_singleton.2 rfl),
   ((unsupported_value_panics (DynSolValue.bool true) (by decide)).2.2.1 ⟨[], []⟩ []).1⟩

/-- C6 (the code, not the claim): zero leaves make the `usize` length
computation `2 * 0 - 1` underflow (modelled by the checked subtraction
returning `none`); no `EmptyTreeRejected`-style error value is returned. -/
theorem empty_leaves_underflow :
    checkedSub (2 * ([] : List Nat).length) 1 = none ∧
    make_merkle_tree [] = none ∧
    StandardMerkleTree.of [] = none :=
  ⟨rfl, rfl, rfl⟩

/-- Evaluating `get_proof` when the key is absent from the reverse index. -/
theorem get_proof_lookup_none (t : StandardMerkleTree) (v : DynSolValue) (k : List Nat)
    (hk : StandardMerkleTree.check_valid_value_type v = some k)
    (hl : List.lookup k t.tree_values = none) :
    t.get_proof v = some (.error .LeafNotFound) := by
  rw [StandardMerkleTree.get_proof, hk, Option.map_some', hl]

/-- Evaluating `get_proof` when the key resolves to a stored position. -/
theorem get_proof_lookup_some (t : StandardMerkleTree) (v : DynSolValue) (k : List Nat)
    (i : Nat) (hk : StandardMerkleTree.check_valid_value_type v = some k)
    (hl : List.lookup k t.tree_values = some i) :
    t.get_proof v = some (make_proof t.tree i) := by
  rw [StandardMerkleTree.get_proof, hk, Option.map_some', hl]

/-- Evaluating `verify_proof` once the leaf hash and the root are known. -/
theorem verify_proof_eq (t : StandardMerkleTree) (v : DynSolValue) (proof : List Nat)
    (d r : Nat) (hd : standard_leaf_hash v = some d) (hr : t.tree[0]? = some r) :
    t.verify_proof v proof = some (r == process_proof d proof) := by
  rw [StandardMerkleTree.verify_proof, hd, Option.some_bind, hr, Option.map_some']

/-- C1 (amended: distinct leaves must have distinct serialized keys): for
every nonempty list of supported leaf values in which no two distinct
values share a serialized key, building with `of` and then verifying the
proof obtained with `get_proof` succeeds for every value of the list. -/
theorem round_trip_verifies (values : List DynSolValue) (v : DynSolValue)
    (hne : values ≠ [])
    (hsup : ∀ a ∈ values, supportedValue a = true)
    (hinj : ∀ a ∈ values, ∀ b ∈ values,
      StandardMerkleTree.check_valid_value_type a = StandardMerkleTree.check_valid_value_type b →
      a = b)
    (hv : v ∈ values) :
    ∃ t proof, StandardMerkleTree.of values = some t ∧
      t.get_proof v = some (.ok proof) ∧
      t.verify_proof v proof = some true := by
  obtain ⟨hs, ks, T, m', hhs, hks, hT, hm', hof, hlenhs, hlenks, hTlen, hTspec⟩ :=
    of_parts values hne hsup
  have hn : 0 < values.length := List.length_pos.2 hne
  obtain ⟨k, hk⟩ := Option.isSome_iff_exists.1 (supported_check_isSome v (hsup v hv))
  obtain ⟨i0, hi0⟩ := List.mem_iff_getElem?.1 hv
  have hk_mem : k ∈ ks := by
    have h0 := mapOpt_getElem? StandardMerkleTree.check_valid_value_type hks i0
    rw [hi0, Option.some_bind, hk] at h0
    exact List.mem_iff_getElem?.2 ⟨i0, h0⟩
  have hhsne : hs ≠ [] := by
    intro h
    rw [h] at hlenhs
    simp at hlenhs
    omega
  have hint := make_merkle_tree_internal_inv hs T hhsne hT
  obtain ⟨j, psf, hjn, hkj, hlook, hmp, hproc, _⟩ :=
    lookup_leaf_make_proof values ks T m' k hks hm' hlenks (by omega) hn hint hk_mem
  have hvw : values[j]? = some values[j] := List.getElem?_eq_getElem hjn
  have hks_j : ks[j]? = some k := by
    rw [List.getElem?_eq_getElem (show j < ks.length by omega)]
    rw [← hkj, List.getD_eq_getElem ks [] (show j < ks.length by omega)]
  have hkw : StandardMerkleTree.check_valid_value_type values[j] = some k := by
    have h2 := mapOpt_getElem? StandardMerkleTree.check_valid_value_type hks j
    rw [hks_j, hvw, Option.some_bind] at h2
    exact h2.symm
  have hwv : values[j] = v :=
    hinj values[j] (List.getElem_mem hjn) v hv (by rw [hkw, hk])
  obtain ⟨d, hd⟩ := Option.isSome_iff_exists.1 (supported_hash_isSome v (hsup v hv))
  have hhs_j : hs[j]? = some d := by
    have h3 := mapOpt_getElem? standard_leaf_hash hhs j
    rw [hvw, Option.some_bind, hwv, hd] at h3
    exact h3
  have hhsD : hs.getD j 0 = d := by
    rw [List.getD_eq_getElem?_getD, hhs_j]
    rfl
  have hplt : T.length - j - 1 < T.length := by omega
  have hTp : T.getD (T.length - j - 1) 0 = d := by
    rw [hTspec _ hplt, treeSpec_leaf (by omega)]
    have harith : 2 * hs.length - 2 - (T.length - j - 1) = j := by omega
    rw [harith, hhsD]
  have hget : StandardMerkleTree.get_proof ⟨T, m'⟩ v = some (.ok psf) := by
    rw [get_proof_lookup_some ⟨T, m'⟩ v k (T.length - j - 1) hk hlook]
    exact congrArg some hmp
  have hver : StandardMerkleTree.verify_proof ⟨T, m'⟩ v psf = some true := by
    rw [verify_proof_eq ⟨T, m'⟩ v psf d (T.getD 0 0) hd (getElem?_zero_eq_getD T (by omega))]
    rw [← hTp, hproc]
    simp
  exact ⟨⟨T, m'⟩, psf, hof, hget, hver⟩

/-- Witness for C1 at the concrete two-value input `["a", "b"]`. -/
theorem round_trip_verifies_witness :
    ([DynSolValue.string [97], DynSolValue.string [98]] ≠ []) ∧
    (∀ a ∈ [DynSolValue.string [97], DynSolValue.string [98]], supportedValue a = true) ∧
    (∀ a ∈ [DynSolValue.string [97], DynSolValue.string [98]],
      ∀ b ∈ [DynSolValue.string [97], DynSolValue.string [98]],
      StandardMerkleTree.check_valid_value_type a = StandardMerkleTree.check_valid_value_type b →
      a = b) ∧
    DynSolValue.string [97] ∈ [DynSolValue.string [97], DynSolValue.string [98]] ∧
    ∃ t proof,
      StandardMerkleTree.of [DynSolValue.string [97], DynSolValue.string [98]] = some t ∧
      t.get_proof (DynSolValue.string [97]) = some (.ok proof) ∧
      t.verify_proof (DynSolValue.string [97]) proof = some true :=
  ⟨by decide, by decide, by decide, by decide,
   round_trip_verifies [DynSolValue.string [97], DynSolValue.string [98]]
     (DynSolValue.string [97]) (by decide) (by decide) (by decide) (by decide)⟩

/-- C7: a tree built from exactly one supported value has the double
keccak of the encoded value as root, the empty proof for that value, and a
passing verification of the empty proof. -/
theorem single_leaf_scenario (v : DynSolValue) (e : List Nat)
    (he : leafEncode v = some e) :
    ∃ t, StandardMerkleTree.of [v] = some t ∧
      t.root = some (bytesToNatBE (keccak256Bytes (keccak256Bytes e))) ∧
      t.get_proof v = some (.ok []) ∧
      t.verify_proof v [] = some true := by
  have hv1 : ([v] : List DynSolValue).length = 1 := rfl
  have hsupv : supportedValue v = true := by
    cases v <;> simp_all [leafEncode, supportedValue]
  generalize hD : bytesToNatBE (keccak256Bytes (keccak256Bytes e)) = D
  have hd : standard_leaf_hash v = some D := by
    rw [standard_leaf_hash, he, Option.map_some', hD]
  obtain ⟨hs, ks, T, m', hhs, hks, hT, hm', hof, hlenhs, hlenks, hTlen, hTspec⟩ :=
    of_parts [v] (by simp) (by intro a ha; rw [List.mem_singleton.1 ha]; exact hsupv)
  obtain ⟨k, hk⟩ := Option.isSome_iff_exists.1 (supported_check_isSome v hsupv)
  have hk_mem : k ∈ ks := by
    have h0 := mapOpt_getElem? StandardMerkleTree.check_valid_value_type hks 0
    simp only [List.getElem?_cons_zero, Option.some_bind, hk] at h0
    exact List.mem_iff_getElem?.2 ⟨0, h0⟩
  have hhsne : hs ≠ [] := by
    intro h
    rw [h] at hlenhs
    simp at hlenhs
  have hint := make_merkle_tree_internal_inv hs T hhsne hT
  obtain ⟨j, psf, hjn, hkj, hlook, hmp, hproc, hpsl⟩ :=
    lookup_leaf_make_proof [v] ks T m' k hks hm' hlenks (by omega) (by omega) hint hk_mem
  have hj0 : j = 0 := by omega
  subst hj0
  have hT1 : T.length = 1 := by omega
  have hp0 : T.length - 0 - 1 = 0 := by omega
  rw [hp0] at hmp hproc hlook hpsl
  have hpsf : psf = [] := by
    rw [stepsToRoot_zero] at hpsl
    exact List.length_eq_zero.1 hpsl
  subst hpsf
  have hhs_0 : hs[0]? = some D := by
    have h3 := mapOpt_getElem? standard_leaf_hash hhs 0
    simp only [List.getElem?_cons_zero, Option.some_bind, hd] at h3
    exact h3
  have hT0 : T.getD 0 0 = D := by
    rw [hTspec 0 (by omega), treeSpec_leaf (by omega)]
    have harith : 2 * hs.length - 2 - 0 = 0 := by omega
    rw [harith, List.getD_eq_getElem?_getD, hhs_0]
    rfl
  have hroot : StandardMerkleTree.root ⟨T, m'⟩ = some D := by
    show T[0]? = _
    rw [getElem?_zero_eq_getD T (by omega), hT0]
  have hget : StandardMerkleTree.get_proof ⟨T, m'⟩ v = some (.ok []) := by
    rw [get_proof_lookup_some ⟨T, m'⟩ v k 0 hk hlook]
    exact congrArg some hmp
  have hver : StandardMerkleTree.verify_proof ⟨T, m'⟩ v [] = some true := by
    rw [verify_proof_eq ⟨T, m'⟩ v [] D (T.getD 0 0) hd (getElem?_zero_eq_getD T (by omega))]
    rw [show process_proof D [] = D from rfl]
    rw [hT0]
    simp
  exact ⟨⟨T, m'⟩, hof, hroot, hget, hver⟩

/-- Witness for C7 at the concrete one-value input `["a"]`. -/
theorem single_leaf_scenario_witness :
    leafEncode (DynSolValue.string [97]) = some [97] ∧
    ∃ t, StandardMerkleTree.of [DynSolValue.string [97]] = some t ∧
      t.root = some (bytesToNatBE (keccak256Bytes (keccak256Bytes [97]))) ∧
      t.get_proof (DynSolValue.string [97]) = some (.ok []) ∧
      t.verify_proof (DynSolValue.string [97]) [] = some true :=
  ⟨rfl, single_leaf_scenario (DynSolValue.string [97]) [97] rfl⟩

/-- C9 (amended: the LeafNotFound outcome is governed by the serialized
key, not by value membership): `get_proof` fails with `LeafNotFound`
exactly when the queried value's key is absent from the built key list,
and succeeds on every present key through the stored leaf position. -/
theorem get_proof_LeafNotFound_iff (values : List DynSolValue) (v : DynSolValue)
    (k : List Nat) (ks : List (List Nat))
    (hne : values ≠ [])
    (hsup : ∀ a ∈ values, supportedValue a = true)
    (hk : StandardMerkleTree.check_valid_value_type v = some k)
    (hks : mapOpt StandardMerkleTree.check_valid_value_type values = some ks) :
    ∃ t, StandardMerkleTree.of values = some t ∧
      ((t.get_proof v = some (.error .LeafNotFound)) ↔ k ∉ ks) ∧
      (k ∈ ks → ∃ proof, t.get_proof v = some (.ok proof)) := by
  obtain ⟨hs, ks', T, m', hhs, hks', hT, hm', hof, hlenhs, hlenks, hTlen, hTspec⟩ :=
    of_parts values hne hsup
  rw [hks] at hks'
  cases hks'
  have hn : 0 < values.length := List.length_pos.2 hne
  have hhsne : hs ≠ [] := by
    intro h
    rw [h] at hlenhs
    simp at hlenhs
    omega
  have hint := make_merkle_tree_internal_inv hs T hhsne hT
  by_cases hmem : k ∈ ks
  · obtain ⟨j, psf, hjn, hkj, hlook, hmp, hproc, _⟩ :=
      lookup_leaf_make_proof values ks T m' k hks hm' hlenks (by omega) hn hint hmem
    have hget : StandardMerkleTree.get_proof ⟨T, m'⟩ v = some (.ok psf) := by
      rw [get_proof_lookup_some ⟨T, m'⟩ v k (T.length - j - 1) hk hlook]
      exact congrArg some hmp
    refine ⟨⟨T, m'⟩, hof, ⟨fun h => ?_, fun h => absurd hmem h⟩, fun _ => ⟨psf, hget⟩⟩
    rw [hget] at h
    simp at h
  · have hlooknone : List.lookup k m' = none := by
      rw [insertAll_lookup_not_mem values ks
        ((List.range values.length).map fun i => T.length - i - 1) [] m' k hks hm' hmem]
      rfl
    have hget : StandardMerkleTree.get_proof ⟨T, m'⟩ v = some (.error .LeafNotFound) :=
      get_proof_lookup_none ⟨T, m'⟩ v k hk hlooknone
    exact ⟨⟨T, m'⟩, hof, ⟨fun _ => hmem, fun _ => hget⟩, fun h => absurd h hmem⟩

/-- Witness for C9 at the one-value input `["a"]` queried with `"b"`. -/
theorem get_proof_LeafNotFound_iff_witness :
    StandardMerkleTree.check_valid_value_type (DynSolValue.string [98]) = some [98] ∧
    mapOpt StandardMerkleTree.check_valid_value_type [DynSolValue.string [97]] = some [[97]] ∧
    ∃ t, StandardMerkleTree.of [DynSolValue.string [97]] = some t ∧
      ((t.get_proof (DynSolValue.string [98]) = some (.error .LeafNotFound)) ↔
        ([98] : List Nat) ∉ [[97]]) ∧
      (([98] : List Nat) ∈ [[97]] →
        ∃ proof, t.get_proof (DynSolValue.string [98]) = some (.ok proof)) :=
  ⟨rfl, rfl, get_proof_LeafNotFound_iff [DynSolValue.string [97]] (DynSolValue.string [98])
    [98] [[97]] (by decide) (by decide) rfl rfl⟩

/-! ## Key-collision counterexamples -/

/-- A text value whose bytes are exactly the hex serialization of the zero
word: its map key collides with the key of `.fixedBytes 0 32`. -/
def collisionString : DynSolValue := .string (hexKeyBytes 0)

/-- The zero 32-byte word as a fixed-bytes leaf. -/
def collisionWord : DynSolValue := .fixedBytes 0 32

/-- C1 counterexample: both leaves are supported and the first is a member
of the list, yet its round trip through `get_proof` and `verify_proof`
returns `false`, because the second leaf silently overwrites the first
one's reverse-index entry for their shared serialized key. -/
theorem round_trip_fails_on_key_collision :
    collisionString ≠ collisionWord ∧
    collisionString ∈ [collisionString, collisionWord] ∧
    supportedValue collisionString = true ∧
    supportedValue collisionWord = true ∧
    ((StandardMerkleTree.of [collisionString, collisionWord]).bind fun t =>
      (t.get_proof collisionString).bind fun r =>
        match r with
        | .ok p => t.verify_proof collisionString p
        | .error _ => none) = some false := by
  refine ⟨by decide, by decide, by decide, by decide, ?_⟩
  decide

/-- C9 counterexample: the text value was never inserted into the
one-leaf tree, yet `get_proof` succeeds (with the empty proof) instead of
failing with `LeafNotFound`, because its serialized key equals the key of
the inserted word. -/
theorem get_proof_succeeds_for_never_inserted_value :
    collisionString ∉ [collisionWord] ∧
    supportedValue collisionString = true ∧
    ((StandardMerkleTree.of [collisionWord]).bind fun t =>
      t.get_proof collisionString) = some (.ok []) := by
  refine ⟨by decide, by decide, ?_⟩
  decide
